import Mathlib

/-!
Verification development for the no-db storage engine core.

The definitions below are a shallow embedding of the Rust sources:
  src/wal/buffer.rs   (LogBuffer)
  src/wal/wal.rs      (WriteAheadLog append / new_transaction / commit,
                       the WAL io loop LSN assignment, replay)
  src/disk/finder.rs  (the batch-commit worker of F::open)
  src/buffer/cache.rs (PageCache)
  src/cursor/cursor.rs (Cursor state machine)

Machine integers (usize) are modelled as Nat: none of the embedded code
paths rely on wrapping arithmetic.  Page payloads are abstracted to a Nat,
since the serialization bijection is outside the verified core.  Fallible
I/O is passed in as an explicit Res value: the embedded operation is a
function of the response the io worker would produce.
-/

namespace NoDb

/-- Error type surfaced at the boundary (src error enum: NotFound,
TransactionClosed, IO).  IO details are abstracted to a numeric code. -/
inductive DbError
  | notFound
  | transactionClosed
  | ioFault (code : Nat)
deriving DecidableEq

/-- Model of the Rust Result type used throughout src. -/
inductive Res (α : Type)
  | ok (a : α)
  | error (e : DbError)
deriving DecidableEq

/-- Payload of an Insert WAL record (page index and page data);
mirrors the insert log of src/src/wal. -/
structure InsertLog where
  pageIndex : Nat
  data : Nat
deriving DecidableEq

/-- WAL record operation tags, as in the spec record encoding:
Start, Commit, Abort, Checkpoint(apply_upto), Insert. -/
inductive Operation
  | start
  | commit
  | abort
  | checkpoint (applyUpto : Nat)
  | insert (log : InsertLog)
deriving DecidableEq

/-- One WAL record: LSN (index), transaction id, operation. -/
structure LogRecord where
  index : Nat
  transactionId : Nat
  operation : Operation
deriving DecidableEq

/-! ### BTreeMap / BTreeSet models
The Rust code keeps records in BTreeMap and BTreeSet.  A BTreeMap is
modelled as an association list kept sorted (strictly ascending) by key;
insert replaces an existing binding.  A BTreeSet is a duplicate-free list. -/

/-- Insert into a sorted association list, replacing an equal key
(model of BTreeMap::insert). -/
def btInsert {α : Type} (k : Nat) (v : α) : List (Nat × α) → List (Nat × α)
  | [] => [(k, v)]
  | (k', v') :: t =>
    if k < k' then (k, v) :: (k', v') :: t
    else if k = k' then (k, v) :: t
    else (k', v') :: btInsert k v t

/-- Lookup in an association list (model of BTreeMap::get). -/
def btLookup {α : Type} (k : Nat) : List (Nat × α) → Option α
  | [] => none
  | (k', v') :: t => if k = k' then some v' else btLookup k t

/-- Remove a key from an association list (model of BTreeMap::remove). -/
def btErase {α : Type} (k : Nat) (l : List (Nat × α)) : List (Nat × α) :=
  l.filter (fun p => p.1 ≠ k)

/-- Set insert for a duplicate-free list (model of BTreeSet::insert). -/
def setInsert (x : Nat) (s : List Nat) : List Nat :=
  if x ∈ s then s else s ++ [x]

/-- Set removal (model of BTreeSet::remove). -/
def setRemove (x : Nat) (s : List Nat) : List Nat :=
  s.filter (fun y => y ≠ x)

/-! ### LogBuffer (src/src/wal/buffer.rs)
State: last issued transaction id, a BTreeMap from transaction id to its
pending records, and the running record count (field size). -/

/-- In-memory WAL buffer state, fields as in LogBufferCore. -/
structure LogBufSt where
  lastTransaction : Nat
  map : List (Nat × List LogRecord)
  size : Nat
deriving DecidableEq

/-- Fresh LogBuffer (LogBuffer::new). -/
def lbNew : LogBufSt := { lastTransaction := 0, map := [], size := 0 }

/-- Push a record onto the vector of an existing transaction, creating the
entry when absent (map.entry(tx_id).or_default().push(record)). -/
def btEntryPush (tx : Nat) (r : LogRecord) : List (Nat × List LogRecord) →
    List (Nat × List LogRecord)
  | [] => [(tx, [r])]
  | (k, v) :: t =>
    if tx < k then (tx, [r]) :: (k, v) :: t
    else if tx = k then (k, v ++ [r]) :: t
    else (k, v) :: btEntryPush tx r t

/-- LogBuffer::append: enqueue an Insert record for tx_id, grow size. -/
def lbAppendRec (tx pi d : Nat) (st : LogBufSt) : LogBufSt :=
  { st with
    map := btEntryPush tx { index := 0, transactionId := tx,
                            operation := Operation.insert { pageIndex := pi, data := d } } st.map
    size := st.size + 1 }

/-- LogBuffer::new_transaction: issue last_transaction + 1, store its Start
record, grow size; returns the fresh transaction id. -/
def lbNewTransaction (st : LogBufSt) : Nat × LogBufSt :=
  let tx := st.lastTransaction + 1
  (tx, { lastTransaction := tx
         map := btInsert tx [{ index := 0, transactionId := tx, operation := Operation.start }] st.map
         size := st.size + 1 })

/-- LogBuffer::commit: remove the transaction's records (empty when the
transaction is unknown), shrink size, append a Commit record to the
returned batch.  The Commit record is only in the return value, never in
the buffer. -/
def lbCommit (tx : Nat) (st : LogBufSt) : List LogRecord × LogBufSt :=
  let records := (btLookup tx st.map).getD []
  (records ++ [{ index := 0, transactionId := tx, operation := Operation.commit }],
   { st with map := btErase tx st.map, size := st.size - records.length })

/-- LogBuffer::flush: reset size to zero, take the whole map, return all
records in transaction-id order. -/
def lbFlush (st : LogBufSt) : List LogRecord × LogBufSt :=
  ((st.map.map Prod.snd).flatten, { st with map := [], size := 0 })

/-- LogBuffer::len: the running record count. -/
def lbLen (st : LogBufSt) : Nat := st.size

/-! ### WriteAheadLog operations (src/src/wal/wal.rs, lines 221-240)
Each operation is a function of the reply ioRes the io worker returns for
the flushed batch; when no batch is sent no reply is consumed.  The third
component records whether the operation flushed the buffer. -/

/-- WriteAheadLog::append: buffer the record, then flush the whole buffer
to the io worker iff the buffered record count has reached
max_buffer_size (the source condition is buffer.len() >= max_buffer_size). -/
def walAppend (ioRes : Res Unit) (maxBuf tx pi d : Nat)
    (st : LogBufSt) : Res Unit × LogBufSt × Bool :=
  let st1 := lbAppendRec tx pi d st
  if maxBuf ≤ lbLen st1 then
    (ioRes, (lbFlush st1).2, true)
  else
    (Res.ok (), st1, false)

/-- WriteAheadLog::new_transaction: issue a transaction id, then flush the
whole buffer iff the record count has reached max_buffer_size; the id is
returned even when the flush fails only through the error path checks. -/
def walNewTransaction (ioRes : Res Unit) (maxBuf : Nat)
    (st : LogBufSt) : Res Nat × LogBufSt × Bool :=
  let (tx, st1) := lbNewTransaction st
  if maxBuf ≤ lbLen st1 then
    match ioRes with
    | Res.error e => (Res.error e, (lbFlush st1).2, true)
    | Res.ok _ => (Res.ok tx, (lbFlush st1).2, true)
  else
    (Res.ok tx, st1, false)

/-- WriteAheadLog::commit: drain the transaction from the buffer, send the
batch to the io worker, and return the worker's reply. -/
def walCommit (ioRes : Res Unit) (tx : Nat) (st : LogBufSt) :
    Res Unit × LogBufSt :=
  let (_, st1) := lbCommit tx st
  (ioRes, st1)

/-! ### WAL recovery: replay (src/src/wal/wal.rs, lines 452-525)
The scan walks the WAL file pages in order.  A page that fails
deserialization is skipped; a read error stops the scan.  Records are
collected into a BTreeMap keyed by LSN, and the circular wrap point is
remembered whenever an LSN decreases. -/

/-- Outcome of reading one WAL page during the replay scan. -/
inductive PageRead
  | okPage (records : List LogRecord)
  | corrupt
  | readErr
deriving DecidableEq

/-- State of the replay scan loop: wrap cursor, last LSN seen while
scanning, and the BTreeMap of records keyed by LSN. -/
structure ScanState where
  cursor : Nat
  cursorIndex : Nat
  records : List (Nat × LogRecord)
deriving DecidableEq

/-- Process the records of one successfully decoded WAL page. -/
def scanPage (pageIdx : Nat) (recs : List LogRecord) (st : ScanState) : ScanState :=
  recs.foldl
    (fun st r =>
      { cursor := if r.index < st.cursorIndex then pageIdx else st.cursor
        cursorIndex := r.index
        records := btInsert r.index r st.records })
    st

/-- Scan loop over the WAL file pages (for index in 0..max_file_size):
corrupt pages are skipped, a read error breaks the loop. -/
def scanPages : Nat → List PageRead → ScanState → ScanState
  | _, [], st => st
  | i, p :: rest, st =>
    match p with
    | PageRead.okPage recs => scanPages (i + 1) rest (scanPage i recs st)
    | PageRead.corrupt => scanPages (i + 1) rest st
    | PageRead.readErr => st

/-- Accumulator of the replay classification pass, fields as in the
source local variables. -/
structure ReplaySt where
  lastIndex : Nat
  lastTransaction : Nat
  started : List Nat
  committed : List Nat
  aborted : List Nat
  inserts : List (Nat × (Nat × InsertLog))
deriving DecidableEq

/-- Initial classification accumulator (all zero / empty). -/
def replayInit : ReplaySt :=
  { lastIndex := 0, lastTransaction := 0, started := [], committed := []
    aborted := [], inserts := [] }

/-- One record of the classification pass.  last_transaction and
last_index take the running maxima; Commit and Abort move a transaction
out of started only when it is present; Checkpoint(i) drops buffered
inserts with LSN below i and clears the three sets; Insert is buffered. -/
def replayStep (st : ReplaySt) (r : LogRecord) : ReplaySt :=
  let st := { st with lastTransaction := max r.transactionId st.lastTransaction
                      lastIndex := max r.index st.lastIndex }
  match r.operation with
  | Operation.start => { st with started := setInsert r.transactionId st.started }
  | Operation.commit =>
    if r.transactionId ∈ st.started then
      { st with started := setRemove r.transactionId st.started
                committed := setInsert r.transactionId st.committed }
    else st
  | Operation.abort =>
    if r.transactionId ∈ st.started then
      { st with started := setRemove r.transactionId st.started
                aborted := setInsert r.transactionId st.aborted }
    else st
  | Operation.checkpoint i =>
    { st with inserts := st.inserts.filter (fun p => i ≤ p.1)
              started := [], committed := [], aborted := [] }
  | Operation.insert log =>
    { st with inserts := btInsert r.index (r.transactionId, log) st.inserts }

/-- Partition of the buffered inserts into to_be_flush (committed
transactions, with page index and data) and to_be_rollback, in LSN
order, as in the final loop of replay. -/
def replayPartition (committed : List Nat) :
    List (Nat × InsertLog) → List (Nat × Nat × Nat) × List (Nat × Nat)
  | [] => ([], [])
  | (tx, log) :: rest =>
    let (f, rb) := replayPartition committed rest
    if tx ∈ committed then ((tx, log.pageIndex, log.data) :: f, rb)
    else (f, (tx, log.pageIndex) :: rb)

/-- Classification state after scanning and traversing all collected
records in LSN order. -/
def replayClassified (pages : List PageRead) : ReplaySt :=
  let scan := scanPages 0 pages { cursor := 0, cursorIndex := 0, records := [] }
  (scan.records.map Prod.snd).foldl replayStep replayInit

/-- Records collected by the replay scan, in LSN order. -/
def collectedRecords (pages : List PageRead) : List LogRecord :=
  (scanPages 0 pages { cursor := 0, cursorIndex := 0, records := [] }).records.map Prod.snd

/-- List of committed inserts computed (and then discarded) by replay:
the to_be_flush vector of the source. -/
def replayFlushList (pages : List PageRead) : List (Nat × Nat × Nat) :=
  let st := replayClassified pages
  (replayPartition st.committed (st.inserts.map Prod.snd)).1

/-- Model of the free function replay: its entire result is the triple
(last_transaction, cursor, last_index).  The to_be_flush and
to_be_rollback vectors are computed exactly as in the source and then
dropped, since the source never passes them anywhere. -/
def replay (pages : List PageRead) : Nat × Nat × Nat :=
  let scan := scanPages 0 pages { cursor := 0, cursorIndex := 0, records := [] }
  let st := (scan.records.map Prod.snd).foldl replayStep replayInit
  let _flushRollback := replayPartition st.committed (st.inserts.map Prod.snd)
  (st.lastTransaction, scan.cursor, st.lastIndex)

/-! ### WAL io loop LSN assignment (src/src/wal/wal.rs, lines 391-436)
For each record of a batch the io thread takes the write lock on
last_index, sets the record index to last_index + 1 and increments
last_index.  A batch_write failure breaks the loop, discarding the
remaining records; the records processed up to the break are exactly
the assignment applied to a prefix of the batch, so the pure assignment
below is stated over an arbitrary record list. -/

/-- LSN assignment of the io loop over one batch of records. -/
def walAssign : Nat → List LogRecord → List LogRecord × Nat
  | last, [] => ([], last)
  | last, r :: rest =>
    let r' := { r with index := last + 1 }
    let (rs, l') := walAssign (last + 1) rest
    (r' :: rs, l')

/-- LSN assignment over successive batches sent to the io loop. -/
def walAssignBatches : Nat → List (List LogRecord) → List LogRecord × Nat
  | last, [] => ([], last)
  | last, b :: rest =>
    let (rs, l') := walAssign last b
    let (rs', l'') := walAssignBatches l' rest
    (rs ++ rs', l'')

/-- Running maximum of record LSNs with the source's initial value 0,
as accumulated by replay into last_index. -/
def maxRecordIndex (l : List LogRecord) : Nat :=
  l.foldl (fun a r => max r.index a) 0

/-! ### Finder batch worker (src/src/disk/finder.rs, lines 241-259)
The worker keeps a vector of waiters.  On an incoming write it forwards
Command::Write to the io thread: on error it signals only that waiter
and returns; on success it enqueues the waiter and, once batch_size is
reached (or on a timer tick, modelled by an empty incoming value), sends
Command::Flush and, if that succeeds, signals all waiters Ok.
Waiters are identified by numeric handles; the first component of the
result lists the completion messages sent, the second is the new pending
vector, the third is the boolean the closure returns. -/

/-- One step of the Finder batch worker.  writeRes and flushRes are the
io-thread replies to the Write and Flush commands this step may issue. -/
def batchStep (batchSize : Nat) (writeRes flushRes : Res Unit)
    (wait : List Nat) (incoming : Option (Nat × Nat × Nat)) :
    List (Nat × Res Unit) × List Nat × Bool :=
  match incoming with
  | some (done, _idx, _page) =>
    match writeRes with
    | Res.error e => ([(done, Res.error e)], wait, false)
    | Res.ok _ =>
      let wait1 := wait ++ [done]
      if wait1.length < batchSize then ([], wait1, false)
      else
        match flushRes with
        | Res.error _ => ([], wait1, false)
        | Res.ok _ => (wait1.map (fun d => (d, Res.ok ())), [], true)
  | none =>
    match flushRes with
    | Res.error _ => ([], wait, false)
    | Res.ok _ => (wait.map (fun d => (d, Res.ok ())), [], true)

/-! ### Page cache (src/src/buffer/cache.rs)
The MVCC chain type and the LRUCache container are part of this
repository but their sources are not under src; they are modelled from
the spec as stated on each definition.  PageCache itself follows
cache.rs line by line. -/

/-- Modelled from the spec: one entry of an MVCC version chain, a page
version tagged by the writing transaction and a committed flag
(committed entries are keyed by their transaction id, which the cache
passes to view and split_off). -/
structure Version where
  txId : Nat
  isCommitted : Bool
  page : Nat
deriving DecidableEq

/-- Modelled from the spec: an MVCC chain is an ordered list of versions,
oldest first. -/
abbrev MVCC := List Version

/-- Modelled from the spec: append an uncommitted version for tx_id at
the newest end of the chain. -/
def mvccAppendUncommitted (tx page : Nat) (c : MVCC) : MVCC :=
  c ++ [{ txId := tx, isCommitted := false, page := page }]

/-- Modelled from the spec: append a committed version at the reader's
snapshot at the newest end of the chain. -/
def mvccAppendCommitted (tx page : Nat) (c : MVCC) : MVCC :=
  c ++ [{ txId := tx, isCommitted := true, page := page }]

/-- Modelled from the spec: view(snapshot) returns the page of the newest
committed entry whose key is at most the snapshot, or none. -/
def mvccView (snapshot : Nat) (c : MVCC) : Option Nat :=
  ((c.filter (fun v => v.isCommitted && decide (v.txId ≤ snapshot))).getLast?).map
    (fun v => v.page)

/-- Modelled from the spec: commit(tx_id) promotes the uncommitted
entries of tx_id to committed. -/
def mvccCommit (tx : Nat) (c : MVCC) : MVCC :=
  c.map (fun v => if v.txId = tx then { v with isCommitted := true } else v)

/-- Modelled from the spec: split_off(t) keeps the entries with key at
least t and removes the older ones, following the flush description of
the spec (split_off(tx_id) removes the now-redundant older versions and
split_off(tx_id + 1) additionally removes the entry at tx_id). -/
def mvccSplitOff (t : Nat) (c : MVCC) : MVCC :=
  c.filter (fun v => t ≤ v.txId)

/-- Modelled from the spec: an LRU map from page index to chain, kept as
an association list with the most recently used binding first. -/
abbrev LRU := List (Nat × MVCC)

/-- Modelled from the spec: plain lookup in the LRU list. -/
def lruPeek (k : Nat) (l : LRU) : Option MVCC :=
  (l.find? (fun p => p.1 == k)).map (fun p => p.2)

/-- Remove every binding of a key from the LRU list. -/
def lruErase (k : Nat) (l : LRU) : LRU :=
  l.filter (fun p => p.1 ≠ k)

/-- Modelled from the spec: LRUCache::get consults the map and refreshes
the recency of a hit by moving the binding to the front. -/
def lruGet (k : Nat) (l : LRU) : Option MVCC × LRU :=
  match lruPeek k l with
  | none => (none, l)
  | some v => (some v, (k, v) :: lruErase k l)

/-- Modelled from the spec: LRUCache::entry(k).or_default() followed by a
chain update f; the touched binding becomes the most recent. -/
def lruEntryModify (k : Nat) (f : MVCC → MVCC) (l : LRU) : LRU :=
  match lruPeek k l with
  | none => (k, f []) :: l
  | some v => (k, f v) :: lruErase k l

/-- Modelled from the spec: LRUCache::get_mut updates the chain of a
present binding in place (recency is irrelevant to the claims). -/
def lruModifyAt (k : Nat) (f : MVCC → MVCC) : LRU → LRU
  | [] => []
  | p :: t => if p.1 = k then (p.1, f p.2) :: t else p :: lruModifyAt k f t

/-- Modelled from the spec: LRUCache::pop_old removes and returns the
least recently used binding (the last of the list). -/
def lruPopOld (l : LRU) : Option ((Nat × MVCC) × LRU) :=
  match l.getLast? with
  | none => none
  | some p => some (p, l.dropLast)

/-- HashMap::insert for the evicted map: overwrite any binding of k. -/
def hmInsert (k : Nat) (v : MVCC) (m : List (Nat × MVCC)) : List (Nat × MVCC) :=
  (k, v) :: m.filter (fun p => p.1 ≠ k)

/-- HashMap::get for the evicted map. -/
def hmLookup (k : Nat) (m : List (Nat × MVCC)) : Option MVCC :=
  (m.find? (fun p => p.1 == k)).map (fun p => p.2)

/-- HashMap::remove for the evicted map. -/
def hmErase (k : Nat) (m : List (Nat × MVCC)) : List (Nat × MVCC) :=
  m.filter (fun p => p.1 ≠ k)

/-- HashMap::get_mut for the evicted map: update a present binding. -/
def hmModifyAt (k : Nat) (f : MVCC → MVCC) : List (Nat × MVCC) → List (Nat × MVCC)
  | [] => []
  | p :: t => if p.1 = k then (p.1, f p.2) :: t else p :: hmModifyAt k f t

/-- Record the pair (tx_id, index) in the uncommitted map
(uncommitted.entry(tx_id).or_default().insert(index)). -/
def umAdd (tx idx : Nat) : List (Nat × List Nat) → List (Nat × List Nat)
  | [] => [(tx, [idx])]
  | (k, v) :: t =>
    if tx = k then (k, setInsert idx v) :: t
    else (k, v) :: umAdd tx idx t

/-- Lookup in the uncommitted map. -/
def umLookup (tx : Nat) (m : List (Nat × List Nat)) : Option (List Nat) :=
  (m.find? (fun p => p.1 == tx)).map (fun p => p.2)

/-- Removal from the uncommitted map. -/
def umErase (tx : Nat) (m : List (Nat × List Nat)) : List (Nat × List Nat) :=
  m.filter (fun p => p.1 ≠ tx)

/-- PageCacheCore state: LRU cache, uncommitted map, evicted overflow
map and the configured bound. -/
structure PC where
  cache : LRU
  uncommitted : List (Nat × List Nat)
  evicted : List (Nat × MVCC)
  maxCacheSize : Nat
deriving DecidableEq

/-- Empty page cache with the given bound. -/
def pcInit (maxSize : Nat) : PC :=
  { cache := [], uncommitted := [], evicted := [], maxCacheSize := maxSize }

/-- PageCache::get: consult the cache first (refreshing recency); on a
miss consult the evicted map without a recency update; apply view. -/
def pcGet (tx idx : Nat) (st : PC) : Option Nat × PC :=
  match lruGet idx st.cache with
  | (some chain, cache') => (mvccView tx chain, { st with cache := cache' })
  | (none, _) =>
    (match hmLookup idx st.evicted with
     | none => none
     | some chain => mvccView tx chain, st)

/-- Shared overflow tail of the two insert operations: when the cache has
reached max_cache_size, pop the LRU victim and move its whole chain into
the evicted map. -/
def pcEvictIfFull (st : PC) : PC :=
  if st.cache.length < st.maxCacheSize then st
  else
    match lruPopOld st.cache with
    | none => st
    | some ((i, chain), cache') =>
      { st with cache := cache', evicted := hmInsert i chain st.evicted }

/-- PageCache::insert_dirty: record (tx_id, index) in uncommitted, append
an uncommitted version to the chain at index, then apply the overflow
policy. -/
def pcInsertDirty (tx idx page : Nat) (st : PC) : PC :=
  pcEvictIfFull
    { st with uncommitted := umAdd tx idx st.uncommitted
              cache := lruEntryModify idx (mvccAppendUncommitted tx page) st.cache }

/-- PageCache::insert_from_disk: append a committed version to the chain
at index, then apply the overflow policy. -/
def pcInsertFromDisk (tx idx page : Nat) (st : PC) : PC :=
  pcEvictIfFull
    { st with cache := lruEntryModify idx (mvccAppendCommitted tx page) st.cache }

/-- PageCache::commit: when tx_id has no uncommitted entry, return at
once; otherwise remove it and promote the chains at each recorded index
in both the cache and the evicted map. -/
def pcCommit (tx : Nat) (st : PC) : PC :=
  match umLookup tx st.uncommitted with
  | none => st
  | some idxs =>
    let st1 := { st with uncommitted := umErase tx st.uncommitted }
    idxs.foldl
      (fun st i =>
        { st with cache := lruModifyAt i (mvccCommit tx) st.cache
                  evicted := hmModifyAt i (mvccCommit tx) st.evicted })
      st1

/-- PageCache::flush: split_off(tx_id) on the cache chain at index, then
split_off(tx_id + 1) on the evicted chain at index, removing the evicted
binding when its chain becomes empty. -/
def pcFlush (tx idx : Nat) (st : PC) : PC :=
  let st1 := { st with cache := lruModifyAt idx (mvccSplitOff tx) st.cache }
  match hmLookup idx st1.evicted with
  | none => st1
  | some chain =>
    let st2 := { st1 with evicted := hmModifyAt idx (mvccSplitOff (tx + 1)) st1.evicted }
    if mvccSplitOff (tx + 1) chain = [] then { st2 with evicted := hmErase idx st2.evicted }
    else st2

/-- One page cache operation, for quantifying over operation sequences. -/
inductive CacheOp
  | getOp (tx idx : Nat)
  | insertDirtyOp (tx idx page : Nat)
  | insertFromDiskOp (tx idx page : Nat)
  | commitOp (tx : Nat)
  | flushOp (tx idx : Nat)
deriving DecidableEq

/-- Apply one page cache operation to the state. -/
def applyCacheOp (st : PC) : CacheOp → PC
  | CacheOp.getOp tx idx => (pcGet tx idx st).2
  | CacheOp.insertDirtyOp tx idx page => pcInsertDirty tx idx page st
  | CacheOp.insertFromDiskOp tx idx page => pcInsertFromDisk tx idx page st
  | CacheOp.commitOp tx => pcCommit tx st
  | CacheOp.flushOp tx idx => pcFlush tx idx st

/-- Run a sequence of page cache operations from a state. -/
def runCacheOps (ops : List CacheOp) (st : PC) : PC :=
  ops.foldl applyCacheOp st

/-! ### Cursor state machine (src/src/cursor/cursor.rs)
The cursor holds a committed flag.  get and insert first test the flag
and fail with TransactionClosed when it is set; commit forwards to the
writer and sets the flag only when the writer succeeds.  The writer
outcome is passed in as a Res value. -/

/-- Cursor transaction state: the committed atomic flag. -/
structure CursorSt where
  isClosed : Bool
deriving DecidableEq

/-- A cursor operation together with the outcome its writer call would
produce (get returns a value page, insert and commit return unit). -/
inductive CursorOp
  | getOp (w : Res Nat)
  | insertOp (w : Res Unit)
  | commitOp (w : Res Unit)
deriving DecidableEq

/-- Observable outcome of one cursor operation. -/
inductive CursorOut
  | fromGet (r : Res Nat)
  | fromInsert (r : Res Unit)
  | fromCommit (r : Res Unit)
deriving DecidableEq

/-- Cursor::get: fail with TransactionClosed when the flag is set,
otherwise return the writer's outcome. -/
def cursorGet (w : Res Nat) (st : CursorSt) : Res Nat × CursorSt :=
  if st.isClosed then (Res.error DbError.transactionClosed, st) else (w, st)

/-- Cursor::insert: fail with TransactionClosed when the flag is set,
otherwise return the writer's outcome. -/
def cursorInsert (w : Res Unit) (st : CursorSt) : Res Unit × CursorSt :=
  if st.isClosed then (Res.error DbError.transactionClosed, st) else (w, st)

/-- Cursor::commit: forward to the writer; set the flag exactly when the
writer succeeded. -/
def cursorCommit (w : Res Unit) (st : CursorSt) : Res Unit × CursorSt :=
  match w with
  | Res.error e => (Res.error e, st)
  | Res.ok _ => (Res.ok (), { isClosed := true })

/-- One step of the cursor state machine. -/
def cursorStep (op : CursorOp) (st : CursorSt) : CursorOut × CursorSt :=
  match op with
  | CursorOp.getOp w =>
    let (r, st') := cursorGet w st
    (CursorOut.fromGet r, st')
  | CursorOp.insertOp w =>
    let (r, st') := cursorInsert w st
    (CursorOut.fromInsert r, st')
  | CursorOp.commitOp w =>
    let (r, st') := cursorCommit w st
    (CursorOut.fromCommit r, st')

/-! ### Concrete states used as evaluation inputs -/

/-- Buffer state holding only the Start record of transaction 1
(record count 1). -/
def lbOneTx : LogBufSt := (lbNewTransaction lbNew).2

/-- WAL file content with a single decoded page carrying one fully
committed transaction that inserted page 5 with payload 42. -/
def c1Pages : List PageRead :=
  [PageRead.okPage
    [{ index := 1, transactionId := 1, operation := Operation.start },
     { index := 2, transactionId := 1,
       operation := Operation.insert { pageIndex := 5, data := 42 } },
     { index := 3, transactionId := 1, operation := Operation.commit }]]

/-- Sample committed version used in concrete page cache states. -/
def vEx : Version := { txId := 1, isCommitted := true, page := 10 }

/-- Page cache at its bound (one slot, one chain cached at index 3). -/
def pcEx : PC :=
  { cache := [(3, [vEx])], uncommitted := [], evicted := [], maxCacheSize := 1 }

/-! ## Theorems -/

/-- C1: the code never applies recovered committed inserts to the page
cache.  At a log holding one committed transaction that inserted page 5,
the classification pass of replay computes the to_be_flush vector
[(1, 5, 42)] as the spec demands, but the entire result of replay is the
triple (last_transaction, cursor, last_index) = (1, 0, 3): the vector is
discarded, no page cache application happens (the flush_c send in the
source is commented out), so the committed write is not reinstated. -/
theorem C1_replay_drops_committed_inserts :
    replayFlushList c1Pages = [(1, 5, 42)] ∧
    replay c1Pages = (1, 0, 3) := by decide

/-- C3 counterexample: committing transaction 1 while the io worker
fails returns the error, as claimed, but the buffer has already lost the
transaction's records: before the call it held the Start record of
transaction 1, afterwards it is empty, so it does not hold exactly the
records it held before the call. -/
theorem C3_io_error_buffer_drained :
    (walCommit (Res.error (DbError.ioFault 7)) 1 lbOneTx).1 =
      Res.error (DbError.ioFault 7) ∧
    (walCommit (Res.error (DbError.ioFault 7)) 1 lbOneTx).2.map = [] ∧
    lbOneTx.map ≠ [] := by decide

/-- C3 amended: a WAL io error still fails the triggering operation with
that error, but the buffer is left drained, not intact: append and
new_transaction flush (emptying the whole buffer) before the reply is
read, and commit removes the transaction's records before the send;
nothing is restored on error. -/
theorem C3_io_error_propagates_buffer_drained (e : DbError)
    (maxBuf tx pi d : Nat) (st : LogBufSt) :
    (maxBuf ≤ lbLen (lbAppendRec tx pi d st) →
      walAppend (Res.error e) maxBuf tx pi d st =
        (Res.error e,
         { lastTransaction := st.lastTransaction, map := [], size := 0 }, true)) ∧
    walCommit (Res.error e) tx st =
      (Res.error e,
       { st with map := btErase tx st.map
                 size := st.size - ((btLookup tx st.map).getD []).length }) ∧
    (maxBuf ≤ lbLen (lbNewTransaction st).2 →
      walNewTransaction (Res.error e) maxBuf st =
        (Res.error e,
         { lastTransaction := st.lastTransaction + 1, map := [], size := 0 }, true)) := by
  refine ⟨fun h => ?_, rfl, fun h => ?_⟩
  · simp [walAppend, lbFlush, lbAppendRec, lbLen] at h ⊢
    simp [h]
  · simp [walNewTransaction, lbFlush, lbNewTransaction, lbLen] at h ⊢
    simp [h]

/-- Witness for the amended C3 theorem at a concrete input. -/
theorem C3_io_error_propagates_buffer_drained_witness :
    walAppend (Res.error (DbError.ioFault 3)) 1 1 2 3 lbNew =
      (Res.error (DbError.ioFault 3),
       { lastTransaction := 0, map := [], size := 0 }, true) :=
  (C3_io_error_propagates_buffer_drained (DbError.ioFault 3) 1 1 2 3 lbNew).1
    (by decide)

/-- C4 counterexample: with waiter 7 pending and a timer tick, a failed
Flush command produces no completion message at all and leaves waiter 7
pending: the pending group is not completed with an error. -/
theorem C4_fsync_failure_leaves_waiters :
    batchStep 2 (Res.ok ()) (Res.error (DbError.ioFault 5)) [7] none =
      ([], [7], false) := by decide

/-- C4 amended: when the fsync issued for a group fails, no waiter is
completed, the pending group is retained for a later attempt, whether the
flush was triggered by the timer or by the write that filled the group;
when an individual write fails, only that write's waiter is signalled
with the error and it is not added to the pending group. -/
theorem C4_write_error_isolated_fsync_error_retains (batchSize : Nat)
    (writeRes flushRes : Res Unit) (e : DbError) (wait : List Nat)
    (done i p : Nat) :
    batchStep batchSize writeRes (Res.error e) wait none = ([], wait, false) ∧
    batchStep batchSize (Res.error e) flushRes wait (some (done, i, p)) =
      ([(done, Res.error e)], wait, false) ∧
    (batchSize ≤ (wait ++ [done]).length →
      batchStep batchSize (Res.ok ()) (Res.error e) wait (some (done, i, p)) =
        ([], wait ++ [done], false)) := by
  refine ⟨?_, ?_, fun h => ?_⟩
  · simp [batchStep]
  · simp [batchStep]
  · simp [batchStep, Nat.not_lt.mpr h]

/-- Witness for the amended C4 theorem at a concrete input. -/
theorem C4_write_error_isolated_fsync_error_retains_witness :
    batchStep 1 (Res.ok ()) (Res.error (DbError.ioFault 2)) [] (some (4, 0, 0)) =
      ([], [4], false) :=
  (C4_write_error_isolated_fsync_error_retains 1 (Res.ok ()) (Res.ok ())
    (DbError.ioFault 2) [] 4 0 0).2.2 (by decide)

/-- C7: once the cursor's committed flag is set, get and insert fail with
TransactionClosed and leave the state unchanged; a commit that returns Ok
sets the flag; the closed state is terminal under every operation; and
from the open state the only step that closes the cursor is a successful
commit. -/
theorem C7_closed_is_terminal (op : CursorOp) (st : CursorSt)
    (w : Res Nat) (u : Res Unit) :
    (st.isClosed = true →
      cursorStep (CursorOp.getOp w) st =
        (CursorOut.fromGet (Res.error DbError.transactionClosed), st) ∧
      cursorStep (CursorOp.insertOp u) st =
        (CursorOut.fromInsert (Res.error DbError.transactionClosed), st)) ∧
    ((cursorStep (CursorOp.commitOp u) st).1 = CursorOut.fromCommit (Res.ok ()) →
      (cursorStep (CursorOp.commitOp u) st).2.isClosed = true) ∧
    (st.isClosed = true → (cursorStep op st).2.isClosed = true) ∧
    (st.isClosed = false → (cursorStep op st).2.isClosed = true →
      op = CursorOp.commitOp (Res.ok ())) := by
  refine ⟨fun h => ?_, fun h => ?_, fun h => ?_, fun h h' => ?_⟩
  · simp [cursorStep, cursorGet, cursorInsert, h]
  · cases u with
    | ok a => simp [cursorStep, cursorCommit]
    | error e => simp [cursorStep, cursorCommit] at h
  · cases op with
    | getOp w' => simp [cursorStep, cursorGet, h]
    | insertOp w' => simp [cursorStep, cursorInsert, h]
    | commitOp w' =>
      cases w' with
      | ok a => simp [cursorStep, cursorCommit]
      | error e => simp [cursorStep, cursorCommit, h]
  · cases op with
    | getOp w' => simp [cursorStep, cursorGet, h] at h'
    | insertOp w' => simp [cursorStep, cursorInsert, h] at h'
    | commitOp w' =>
      cases w' with
      | ok a => rfl
      | error e => simp [cursorStep, cursorCommit, h] at h'

/-- Witness for the C7 theorem at a concrete closed cursor. -/
theorem C7_closed_is_terminal_witness :
    cursorStep (CursorOp.getOp (Res.ok 5)) { isClosed := true } =
      (CursorOut.fromGet (Res.error DbError.transactionClosed),
       { isClosed := true }) :=
  ((C7_closed_is_terminal (CursorOp.getOp (Res.ok 5)) { isClosed := true }
    (Res.ok 5) (Res.ok ())).1 rfl).1

/-- C10: committing a transaction that has no entry in the uncommitted
map leaves the whole page cache state unchanged. -/
theorem C10_commit_unknown_tx_noop (tx : Nat) (st : PC)
    (h : umLookup tx st.uncommitted = none) :
    pcCommit tx st = st := by
  simp [pcCommit, h]

/-- Witness for the C10 theorem at a concrete state. -/
theorem C10_commit_unknown_tx_noop_witness :
    pcCommit 5 pcEx = pcEx :=
  C10_commit_unknown_tx_noop 5 pcEx (by decide)

/-- C8 counterexample: with one record buffered and max_buffer_size 2,
appending makes the count exactly 2, which does not strictly exceed the
bound, yet the operation flushes the buffer. -/
theorem C8_flush_at_exact_threshold :
    (walAppend (Res.ok ()) 2 1 5 9 lbOneTx).2.2 = true ∧
    ¬ (2 < lbLen (lbAppendRec 1 5 9 lbOneTx)) := by decide

/-- C8 amended: append and new_transaction flush the full buffer exactly
when the record count after adding the new record reaches or exceeds
max_buffer_size (a greater-or-equal test, not strictly-greater); below
the bound the buffer is left untouched by the flush path. -/
theorem C8_flush_threshold_is_ge (ioRes : Res Unit) (maxBuf tx pi d : Nat)
    (st : LogBufSt) :
    ((walAppend ioRes maxBuf tx pi d st).2.2 = true ↔
      maxBuf ≤ lbLen (lbAppendRec tx pi d st)) ∧
    ((walNewTransaction ioRes maxBuf st).2.2 = true ↔
      maxBuf ≤ lbLen (lbNewTransaction st).2) ∧
    (walAppend ioRes maxBuf tx pi d st).2.1 =
      (if maxBuf ≤ lbLen (lbAppendRec tx pi d st)
       then (lbFlush (lbAppendRec tx pi d st)).2
       else lbAppendRec tx pi d st) ∧
    (walNewTransaction ioRes maxBuf st).2.1 =
      (if maxBuf ≤ lbLen (lbNewTransaction st).2
       then (lbFlush (lbNewTransaction st).2).2
       else (lbNewTransaction st).2) := by
  by_cases h : maxBuf ≤ st.size + 1
  all_goals
    cases ioRes <;>
      simp [walAppend, walNewTransaction, lbAppendRec, lbNewTransaction,
        lbFlush, lbLen, h]

/-- LSNs assigned to one batch by the io loop are exactly the interval
starting right above the incoming last_index. -/
theorem walAssign_map_index (last : Nat) (rs : List LogRecord) :
    (walAssign last rs).1.map (fun r => r.index) =
      List.range' (last + 1) rs.length := by
  induction rs generalizing last with
  | nil => simp [walAssign]
  | cons r rest ih => simp [walAssign, List.range', ih]

/-- After a batch, last_index has advanced by the batch length. -/
theorem walAssign_last (last : Nat) (rs : List LogRecord) :
    (walAssign last rs).2 = last + rs.length := by
  induction rs generalizing last with
  | nil => simp [walAssign]
  | cons r rest ih => simp [walAssign, ih]; omega

/-- Assignment distributes over concatenation of batches. -/
theorem walAssign_append (last : Nat) (xs ys : List LogRecord) :
    walAssign last (xs ++ ys) =
      ((walAssign last xs).1 ++ (walAssign (walAssign last xs).2 ys).1,
       (walAssign (walAssign last xs).2 ys).2) := by
  induction xs generalizing last with
  | nil => simp [walAssign]
  | cons x xs ih => simp [walAssign, ih]

/-- Batch-by-batch assignment agrees with assigning the concatenation. -/
theorem walAssignBatches_eq_flatten (last : Nat) (bs : List (List LogRecord)) :
    walAssignBatches last bs = walAssign last bs.flatten := by
  induction bs generalizing last with
  | nil => simp [walAssignBatches, walAssign]
  | cons b rest ih => simp [walAssignBatches, walAssign_append, ih]

/-- The lastIndex component of one classification step is the max of the
record's LSN and the accumulator. -/
theorem replayStep_lastIndex (st : ReplaySt) (r : LogRecord) :
    (replayStep st r).lastIndex = max r.index st.lastIndex := by
  rcases r with ⟨i, t, o⟩
  cases o <;> simp [replayStep]
  all_goals split <;> rfl

/-- The classification pass accumulates the running max of record LSNs
into lastIndex. -/
theorem foldl_replayStep_lastIndex (rs : List LogRecord) (st : ReplaySt) :
    (rs.foldl replayStep st).lastIndex =
      rs.foldl (fun a r => max r.index a) st.lastIndex := by
  induction rs generalizing st with
  | nil => rfl
  | cons r rest ih => simp [List.foldl_cons, ih, replayStep_lastIndex]

/-- A running max never drops below where it started. -/
theorem le_foldl_max (rs : List LogRecord) (a b : Nat) (h : a ≤ b) :
    a ≤ rs.foldl (fun a r => max r.index a) b := by
  induction rs generalizing b with
  | nil => exact h
  | cons r rest ih => exact ih _ (le_trans h (le_max_right _ _))

/-- Every record's LSN is bounded by the running max over the list. -/
theorem index_le_foldl_max (rs : List LogRecord) (r : LogRecord) :
    ∀ b : Nat, r ∈ rs → r.index ≤ rs.foldl (fun a x => max x.index a) b := by
  induction rs with
  | nil => intro b h; cases h
  | cons x rest ih =>
    intro b h
    simp only [List.foldl_cons]
    rcases List.mem_cons.mp h with h' | h'
    · subst h'
      exact le_foldl_max rest _ _ (le_max_left _ _)
    · exact ih _ h'

/-- C6: the io loop assigns LSNs last_index + 1, last_index + 2, ... in
order over any sequence of batches (hence strictly increasing over the
store's lifetime); replay restores last_index to the maximum LSN over
all records recovered from the log; and every LSN assigned after a
restart is strictly above every recovered LSN. -/
theorem C6_lsn_monotonicity (pages : List PageRead)
    (batches : List (List LogRecord)) :
    (walAssignBatches (replay pages).2.2 batches).1.map (fun r => r.index) =
      List.range' ((replay pages).2.2 + 1) batches.flatten.length ∧
    List.Pairwise (· < ·)
      ((walAssignBatches (replay pages).2.2 batches).1.map (fun r => r.index)) ∧
    (replay pages).2.2 = maxRecordIndex (collectedRecords pages) ∧
    (∀ r ∈ collectedRecords pages, r.index ≤ (replay pages).2.2) ∧
    (∀ s ∈ (walAssignBatches (replay pages).2.2 batches).1,
      ∀ r ∈ collectedRecords pages, r.index < s.index) := by
  have hrange : (walAssignBatches (replay pages).2.2 batches).1.map
      (fun r => r.index) =
      List.range' ((replay pages).2.2 + 1) batches.flatten.length := by
    rw [walAssignBatches_eq_flatten, walAssign_map_index]
  have hmax : (replay pages).2.2 = maxRecordIndex (collectedRecords pages) := by
    simp [replay, collectedRecords, maxRecordIndex, foldl_replayStep_lastIndex,
      replayInit]
  have hle : ∀ r ∈ collectedRecords pages, r.index ≤ (replay pages).2.2 := by
    intro r hr
    rw [hmax]
    exact index_le_foldl_max _ r 0 hr
  refine ⟨hrange, ?_, hmax, hle, ?_⟩
  · rw [hrange]
    exact List.pairwise_lt_range' _ _
  · intro s hs r hr
    have h1 : s.index ∈
        (walAssignBatches (replay pages).2.2 batches).1.map (fun r => r.index) :=
      List.mem_map_of_mem _ hs
    rw [hrange] at h1
    have h2 := (List.mem_range'_1.mp h1).1
    have h3 := hle r hr
    omega

/-- Witness for the C6 theorem at a concrete log and batch sequence. -/
theorem C6_lsn_monotonicity_witness :
    ({ index := 2, transactionId := 1,
       operation := Operation.insert { pageIndex := 5, data := 42 } } : LogRecord).index ≤
      (replay c1Pages).2.2 :=
  (C6_lsn_monotonicity c1Pages []).2.2.2.1 _ (by decide)

/-- Erasing from the LRU list never lengthens it. -/
theorem lruErase_length_le (k : Nat) (l : LRU) :
    (lruErase k l).length ≤ l.length :=
  List.length_filter_le _ _

/-- A successful peek means erasing strictly shortens the list. -/
theorem lruPeek_some_erase_length (k : Nat) (l : LRU) (v : MVCC)
    (h : lruPeek k l = some v) : (lruErase k l).length < l.length := by
  induction l with
  | nil => simp [lruPeek] at h
  | cons p t ih =>
    by_cases hk : p.1 = k
    · simp only [lruErase, List.filter_cons, List.length_cons]
      simp [hk]
      exact Nat.lt_succ_of_le (List.length_filter_le _ _)
    · have h' : lruPeek k t = some v := by
        simpa [lruPeek, List.find?_cons, hk] using h
      have := ih h'
      simp only [lruErase, List.filter_cons, List.length_cons] at this ⊢
      simp [hk] at this ⊢
      omega

/-- LRUCache::get never grows the map. -/
theorem lruGet_length_le (k : Nat) (l : LRU) :
    (lruGet k l).2.length ≤ l.length := by
  unfold lruGet
  cases hp : lruPeek k l with
  | none => simp
  | some v =>
    simpa using Nat.succ_le_of_lt (lruPeek_some_erase_length k l v hp)

/-- LRUCache::entry().or_default() grows the map by at most one. -/
theorem lruEntryModify_length_le (k : Nat) (f : MVCC → MVCC) (l : LRU) :
    (lruEntryModify k f l).length ≤ l.length + 1 := by
  unfold lruEntryModify
  cases hp : lruPeek k l with
  | none => simp
  | some v =>
    simp only [List.length_cons]
    exact Nat.succ_le_succ (lruErase_length_le k l)

/-- In-place update keeps the map length. -/
theorem lruModifyAt_length (k : Nat) (f : MVCC → MVCC) (l : LRU) :
    (lruModifyAt k f l).length = l.length := by
  induction l with
  | nil => rfl
  | cons p t ih => by_cases h : p.1 = k <;> simp [lruModifyAt, h, ih]

/-- The overflow policy restores the bound from at most one over it, and
leaves the bound and the uncommitted map untouched. -/
theorem pcEvictIfFull_bound (st : PC)
    (h : st.cache.length ≤ st.maxCacheSize + 1) :
    (pcEvictIfFull st).cache.length ≤ st.maxCacheSize ∧
    (pcEvictIfFull st).maxCacheSize = st.maxCacheSize ∧
    (pcEvictIfFull st).uncommitted = st.uncommitted := by
  by_cases hlt : st.cache.length < st.maxCacheSize
  · have key : pcEvictIfFull st = st := by
      simp only [pcEvictIfFull, if_pos hlt]
    rw [key]
    exact ⟨Nat.le_of_lt hlt, rfl, rfl⟩
  · cases hgl : st.cache.getLast? with
    | none =>
      have hnil : st.cache = [] := List.getLast?_eq_none_iff.mp hgl
      have key : pcEvictIfFull st = st := by
        simp only [pcEvictIfFull, if_neg hlt, lruPopOld, hgl]
      rw [key]
      refine ⟨?_, rfl, rfl⟩
      rw [hnil]
      exact Nat.zero_le _
    | some pr =>
      obtain ⟨i, chain⟩ := pr
      have key : pcEvictIfFull st =
          { st with cache := st.cache.dropLast
                    evicted := hmInsert i chain st.evicted } := by
        simp only [pcEvictIfFull, if_neg hlt, lruPopOld, hgl]
      rw [key]
      refine ⟨?_, rfl, rfl⟩
      show st.cache.dropLast.length ≤ st.maxCacheSize
      rw [List.length_dropLast]
      omega

/-- The promotion loop of PageCache::commit keeps the cache length and
the configured bound. -/
theorem pcCommit_foldl_shape (tx : Nat) (idxs : List Nat) (st : PC) :
    (idxs.foldl
      (fun st i =>
        { st with cache := lruModifyAt i (mvccCommit tx) st.cache
                  evicted := hmModifyAt i (mvccCommit tx) st.evicted })
      st).cache.length = st.cache.length ∧
    (idxs.foldl
      (fun st i =>
        { st with cache := lruModifyAt i (mvccCommit tx) st.cache
                  evicted := hmModifyAt i (mvccCommit tx) st.evicted })
      st).maxCacheSize = st.maxCacheSize := by
  induction idxs generalizing st with
  | nil => exact ⟨rfl, rfl⟩
  | cons i rest ih =>
    simp only [List.foldl_cons]
    rcases ih { st with cache := lruModifyAt i (mvccCommit tx) st.cache
                        evicted := hmModifyAt i (mvccCommit tx) st.evicted } with ⟨h1, h2⟩
    refine ⟨?_, h2⟩
    rw [h1]
    exact lruModifyAt_length _ _ _

/-- Every single page cache operation preserves the size bound and the
configured maximum. -/
theorem applyCacheOp_bound (st : PC) (op : CacheOp)
    (h : st.cache.length ≤ st.maxCacheSize) :
    (applyCacheOp st op).cache.length ≤ (applyCacheOp st op).maxCacheSize ∧
    (applyCacheOp st op).maxCacheSize = st.maxCacheSize := by
  cases op with
  | getOp tx idx =>
    rcases hg : lruGet idx st.cache with ⟨o, c'⟩
    have hlen : c'.length ≤ st.cache.length := by
      have hx := lruGet_length_le idx st.cache
      rw [hg] at hx
      exact hx
    cases o with
    | none =>
      have key : applyCacheOp st (CacheOp.getOp tx idx) = st := by
        simp only [applyCacheOp, pcGet, hg]
      rw [key]
      exact ⟨h, rfl⟩
    | some chain =>
      have key : applyCacheOp st (CacheOp.getOp tx idx) = { st with cache := c' } := by
        simp only [applyCacheOp, pcGet, hg]
      rw [key]
      exact ⟨le_trans hlen h, rfl⟩
  | insertDirtyOp tx idx page =>
    have h1 : (lruEntryModify idx (mvccAppendUncommitted tx page) st.cache).length ≤
        st.maxCacheSize + 1 :=
      le_trans (lruEntryModify_length_le _ _ _) (Nat.succ_le_succ h)
    have hb := pcEvictIfFull_bound
      { st with uncommitted := umAdd tx idx st.uncommitted
                cache := lruEntryModify idx (mvccAppendUncommitted tx page) st.cache } h1
    have key : applyCacheOp st (CacheOp.insertDirtyOp tx idx page) =
        pcEvictIfFull
          { st with uncommitted := umAdd tx idx st.uncommitted
                    cache := lruEntryModify idx (mvccAppendUncommitted tx page) st.cache } := rfl
    rw [key, hb.2.1]
    exact ⟨hb.1, rfl⟩
  | insertFromDiskOp tx idx page =>
    have h1 : (lruEntryModify idx (mvccAppendCommitted tx page) st.cache).length ≤
        st.maxCacheSize + 1 :=
      le_trans (lruEntryModify_length_le _ _ _) (Nat.succ_le_succ h)
    have hb := pcEvictIfFull_bound
      { st with cache := lruEntryModify idx (mvccAppendCommitted tx page) st.cache } h1
    have key : applyCacheOp st (CacheOp.insertFromDiskOp tx idx page) =
        pcEvictIfFull
          { st with cache := lruEntryModify idx (mvccAppendCommitted tx page) st.cache } := rfl
    rw [key, hb.2.1]
    exact ⟨hb.1, rfl⟩
  | commitOp tx =>
    cases hu : umLookup tx st.uncommitted with
    | none =>
      have key : applyCacheOp st (CacheOp.commitOp tx) = st := by
        simp only [applyCacheOp, pcCommit, hu]
      rw [key]
      exact ⟨h, rfl⟩
    | some idxs =>
      have key : applyCacheOp st (CacheOp.commitOp tx) =
          idxs.foldl
            (fun st i =>
              { st with cache := lruModifyAt i (mvccCommit tx) st.cache
                        evicted := hmModifyAt i (mvccCommit tx) st.evicted })
            { st with uncommitted := umErase tx st.uncommitted } := by
        simp only [applyCacheOp, pcCommit, hu]
      rcases pcCommit_foldl_shape tx idxs
        { st with uncommitted := umErase tx st.uncommitted } with ⟨s1, s2⟩
      rw [key, s1, s2]
      exact ⟨h, rfl⟩
  | flushOp tx idx =>
    cases he : hmLookup idx st.evicted with
    | none =>
      have key : applyCacheOp st (CacheOp.flushOp tx idx) =
          { st with cache := lruModifyAt idx (mvccSplitOff tx) st.cache } := by
        simp only [applyCacheOp, pcFlush, he]
      rw [key]
      refine ⟨?_, rfl⟩
      show (lruModifyAt idx (mvccSplitOff tx) st.cache).length ≤ st.maxCacheSize
      rw [lruModifyAt_length]
      exact h
    | some chain =>
      by_cases hempty : mvccSplitOff (tx + 1) chain = []
      · have key : applyCacheOp st (CacheOp.flushOp tx idx) =
            { st with cache := lruModifyAt idx (mvccSplitOff tx) st.cache
                      evicted :=
                        hmErase idx (hmModifyAt idx (mvccSplitOff (tx + 1)) st.evicted) } := by
          simp only [applyCacheOp, pcFlush, he, if_pos hempty]
        rw [key]
        refine ⟨?_, rfl⟩
        show (lruModifyAt idx (mvccSplitOff tx) st.cache).length ≤ st.maxCacheSize
        rw [lruModifyAt_length]
        exact h
      · have key : applyCacheOp st (CacheOp.flushOp tx idx) =
            { st with cache := lruModifyAt idx (mvccSplitOff tx) st.cache
                      evicted := hmModifyAt idx (mvccSplitOff (tx + 1)) st.evicted } := by
          simp only [applyCacheOp, pcFlush, he, if_neg hempty]
        rw [key]
        refine ⟨?_, rfl⟩
        show (lruModifyAt idx (mvccSplitOff tx) st.cache).length ≤ st.maxCacheSize
        rw [lruModifyAt_length]
        exact h

/-- Running any operation sequence preserves the size bound. -/
theorem runCacheOps_bound (ops : List CacheOp) (st : PC)
    (h : st.cache.length ≤ st.maxCacheSize) :
    (runCacheOps ops st).cache.length ≤ (runCacheOps ops st).maxCacheSize ∧
    (runCacheOps ops st).maxCacheSize = st.maxCacheSize := by
  induction ops generalizing st with
  | nil => exact ⟨h, rfl⟩
  | cons op rest ih =>
    rcases applyCacheOp_bound st op h with ⟨h1, h2⟩
    have h1' : (applyCacheOp st op).cache.length ≤ (applyCacheOp st op).maxCacheSize := h1
    rcases ih (applyCacheOp st op) h1' with ⟨h3, h4⟩
    have hstep : runCacheOps (op :: rest) st = runCacheOps rest (applyCacheOp st op) := rfl
    rw [hstep]
    exact ⟨h3, h4.trans h2⟩

/-- The overwriting insert of the evicted map is immediately visible. -/
theorem hmLookup_insert_self (k : Nat) (v : MVCC) (m : List (Nat × MVCC)) :
    hmLookup k (hmInsert k v m) = some v := by
  simp [hmLookup, hmInsert, List.find?_cons]

/-- C5: starting from an empty page cache with any configured bound, the
cache map never holds more than max_cache_size entries under any
operation sequence; insert_dirty is the uncommitted-append followed by
the overflow policy; and whenever the overflow policy fires, the LRU
victim's whole chain is moved into the evicted map (stored under its
index), not dropped. -/
theorem C5_cache_bound_eviction_preserves_chain (maxSize : Nat)
    (ops : List CacheOp) (tx idx page : Nat) (st : PC) :
    (runCacheOps ops (pcInit maxSize)).cache.length ≤ maxSize ∧
    pcInsertDirty tx idx page st =
      pcEvictIfFull
        { st with uncommitted := umAdd tx idx st.uncommitted
                  cache := lruEntryModify idx (mvccAppendUncommitted tx page) st.cache } ∧
    (∀ k chain rest, st.maxCacheSize ≤ st.cache.length →
      lruPopOld st.cache = some ((k, chain), rest) →
      (pcEvictIfFull st).cache = rest ∧
      hmLookup k (pcEvictIfFull st).evicted = some chain) := by
  refine ⟨?_, rfl, ?_⟩
  · have h0 : (pcInit maxSize).cache.length ≤ (pcInit maxSize).maxCacheSize := by
      simp [pcInit]
    rcases runCacheOps_bound ops (pcInit maxSize) h0 with ⟨h1, h2⟩
    rw [h2] at h1
    exact h1
  · intro k chain rest hfull hpop
    have key : pcEvictIfFull st =
        { st with cache := rest, evicted := hmInsert k chain st.evicted } := by
      simp only [pcEvictIfFull, if_neg (Nat.not_lt.mpr hfull), hpop]
    rw [key]
    exact ⟨rfl, hmLookup_insert_self _ _ _⟩

/-- Witness for the C5 theorem: a full one-slot cache evicts its chain
into the evicted map intact. -/
theorem C5_cache_bound_eviction_preserves_chain_witness :
    (pcEvictIfFull pcEx).cache = [] ∧
    hmLookup 3 (pcEvictIfFull pcEx).evicted = some [vEx] :=
  (C5_cache_bound_eviction_preserves_chain 1 [] 0 0 0 pcEx).2.2 3 [vEx] []
    (by decide) (by decide)

/-- Unfolding step of the association lookup. -/
theorem hmLookup_cons (k : Nat) (p : Nat × MVCC) (t : List (Nat × MVCC)) :
    hmLookup k (p :: t) = if p.1 = k then some p.2 else hmLookup k t := by
  by_cases h : p.1 = k <;> simp [hmLookup, List.find?_cons, h]

/-- Updating a binding in place is visible through lookup. -/
theorem hmLookup_modifyAt_self (k : Nat) (f : MVCC → MVCC)
    (m : List (Nat × MVCC)) :
    hmLookup k (hmModifyAt k f m) = (hmLookup k m).map f := by
  induction m with
  | nil => rfl
  | cons p t ih =>
    by_cases hk : p.1 = k
    · rw [hmModifyAt, if_pos hk, hmLookup_cons, hmLookup_cons, if_pos hk, if_pos hk]
      rfl
    · rw [hmModifyAt, if_neg hk, hmLookup_cons, hmLookup_cons, if_neg hk, if_neg hk]
      exact ih

/-- Updating a binding in place does not touch other keys. -/
theorem hmLookup_modifyAt_other (j k : Nat) (f : MVCC → MVCC)
    (m : List (Nat × MVCC)) (hjk : j ≠ k) :
    hmLookup j (hmModifyAt k f m) = hmLookup j m := by
  induction m with
  | nil => rfl
  | cons p t ih =>
    by_cases hk : p.1 = k
    · have hpj : p.1 ≠ j := by rw [hk]; exact fun hh => hjk hh.symm
      rw [hmModifyAt, if_pos hk, hmLookup_cons, hmLookup_cons, if_neg hpj, if_neg hpj]
    · rw [hmModifyAt, if_neg hk, hmLookup_cons, hmLookup_cons]
      by_cases hpj : p.1 = j
      · rw [if_pos hpj, if_pos hpj]
      · rw [if_neg hpj, if_neg hpj]
        exact ih

/-- Unfolding step of the erase operation. -/
theorem hmErase_cons (k : Nat) (p : Nat × MVCC) (t : List (Nat × MVCC)) :
    hmErase k (p :: t) = if p.1 = k then hmErase k t else p :: hmErase k t := by
  by_cases h : p.1 = k <;> simp [hmErase, List.filter_cons, h]

/-- Erasing a key removes it from lookup. -/
theorem hmLookup_erase_self (k : Nat) (m : List (Nat × MVCC)) :
    hmLookup k (hmErase k m) = none := by
  induction m with
  | nil => rfl
  | cons p t ih =>
    by_cases hk : p.1 = k
    · rw [hmErase_cons, if_pos hk]
      exact ih
    · rw [hmErase_cons, if_neg hk, hmLookup_cons, if_neg hk]
      exact ih

/-- Erasing a key does not touch other keys. -/
theorem hmLookup_erase_other (j k : Nat) (m : List (Nat × MVCC))
    (hjk : j ≠ k) :
    hmLookup j (hmErase k m) = hmLookup j m := by
  induction m with
  | nil => rfl
  | cons p t ih =>
    by_cases hk : p.1 = k
    · have hpj : p.1 ≠ j := by rw [hk]; exact fun hh => hjk hh.symm
      rw [hmErase_cons, if_pos hk, hmLookup_cons, if_neg hpj]
      exact ih
    · rw [hmErase_cons, if_neg hk, hmLookup_cons, hmLookup_cons]
      by_cases hpj : p.1 = j
      · rw [if_pos hpj, if_pos hpj]
      · rw [if_neg hpj, if_neg hpj]
        exact ih

/-- The two association containers share their lookup function. -/
theorem lruPeek_eq_hmLookup (k : Nat) (l : LRU) : lruPeek k l = hmLookup k l := rfl

/-- The two association containers share their in-place update. -/
theorem lruModifyAt_eq_hmModifyAt (k : Nat) (f : MVCC → MVCC) (l : LRU) :
    lruModifyAt k f l = hmModifyAt k f l := by
  induction l with
  | nil => rfl
  | cons p t ih => by_cases h : p.1 = k <;> simp [lruModifyAt, hmModifyAt, h, ih]

/-- Peek after an in-place cache update at the same key. -/
theorem lruPeek_modifyAt_self (k : Nat) (f : MVCC → MVCC) (l : LRU) :
    lruPeek k (lruModifyAt k f l) = (lruPeek k l).map f := by
  rw [lruPeek_eq_hmLookup, lruPeek_eq_hmLookup, lruModifyAt_eq_hmModifyAt]
  exact hmLookup_modifyAt_self k f l

/-- Peek after an in-place cache update at another key. -/
theorem lruPeek_modifyAt_other (j k : Nat) (f : MVCC → MVCC) (l : LRU)
    (hjk : j ≠ k) :
    lruPeek j (lruModifyAt k f l) = lruPeek j l := by
  rw [lruPeek_eq_hmLookup, lruPeek_eq_hmLookup, lruModifyAt_eq_hmModifyAt]
  exact hmLookup_modifyAt_other j k f l hjk

/-- C9: flush(tx_id, index) applies split_off(tx_id) to the cache chain
at index, dropping only the older versions (keys below tx_id); applies
split_off(tx_id + 1) to the evicted chain at index, additionally
dropping the just-flushed entry; removes the evicted binding exactly
when its remaining chain is empty; and leaves chains at all other
indices, and the uncommitted map, unchanged. -/
theorem C9_flush_split_semantics (tx idx : Nat) (st : PC) :
    (∀ j, j ≠ idx → lruPeek j (pcFlush tx idx st).cache = lruPeek j st.cache) ∧
    (∀ j, j ≠ idx →
      hmLookup j (pcFlush tx idx st).evicted = hmLookup j st.evicted) ∧
    lruPeek idx (pcFlush tx idx st).cache =
      (lruPeek idx st.cache).map (mvccSplitOff tx) ∧
    (hmLookup idx st.evicted = none →
      hmLookup idx (pcFlush tx idx st).evicted = none) ∧
    (∀ chain, hmLookup idx st.evicted = some chain →
      hmLookup idx (pcFlush tx idx st).evicted =
        (if mvccSplitOff (tx + 1) chain = [] then none
         else some (mvccSplitOff (tx + 1) chain))) ∧
    (pcFlush tx idx st).uncommitted = st.uncommitted := by
  cases he : hmLookup idx st.evicted with
  | none =>
    have key : pcFlush tx idx st =
        { st with cache := lruModifyAt idx (mvccSplitOff tx) st.cache } := by
      simp only [pcFlush, he]
    rw [key]
    refine ⟨?_, ?_, ?_, ?_, ?_, rfl⟩
    · intro j hj
      exact lruPeek_modifyAt_other j idx _ _ hj
    · intro j hj
      rfl
    · exact lruPeek_modifyAt_self idx _ _
    · intro _
      exact he
    · intro chain hc
      cases hc
  | some chain0 =>
    by_cases hempty : mvccSplitOff (tx + 1) chain0 = []
    · have key : pcFlush tx idx st =
          { st with cache := lruModifyAt idx (mvccSplitOff tx) st.cache
                    evicted :=
                      hmErase idx (hmModifyAt idx (mvccSplitOff (tx + 1)) st.evicted) } := by
        simp only [pcFlush, he, if_pos hempty]
      rw [key]
      refine ⟨?_, ?_, ?_, ?_, ?_, rfl⟩
      · intro j hj
        exact lruPeek_modifyAt_other j idx _ _ hj
      · intro j hj
        rw [hmLookup_erase_other j idx _ hj, hmLookup_modifyAt_other j idx _ _ hj]
      · exact lruPeek_modifyAt_self idx _ _
      · intro hc
        cases hc
      · intro chain hc
        cases hc
        rw [if_pos hempty]
        exact hmLookup_erase_self idx _
    · have key : pcFlush tx idx st =
          { st with cache := lruModifyAt idx (mvccSplitOff tx) st.cache
                    evicted := hmModifyAt idx (mvccSplitOff (tx + 1)) st.evicted } := by
        simp only [pcFlush, he, if_neg hempty]
      rw [key]
      refine ⟨?_, ?_, ?_, ?_, ?_, rfl⟩
      · intro j hj
        exact lruPeek_modifyAt_other j idx _ _ hj
      · intro j hj
        exact hmLookup_modifyAt_other j idx _ _ hj
      · exact lruPeek_modifyAt_self idx _ _
      · intro hc
        cases hc
      · intro chain hc
        cases hc
        rw [if_neg hempty, hmLookup_modifyAt_self idx _ _, he]
        rfl

/-- Witness for the C9 theorem: flushing index 3 leaves the chain cached
at another index untouched. -/
theorem C9_flush_split_semantics_witness :
    lruPeek 5 (pcFlush 2 3 pcEx).cache = lruPeek 5 pcEx.cache :=
  (C9_flush_split_semantics 2 3 pcEx).1 5 (by decide)

end NoDb
